import Mathlib

/-!
Shallow embedding of the in-memory role hierarchy manager
(`src/rbac/default_role_manager.rs`) of the casbin-rs RBAC package.

Modelling conventions:

* A `Role` node stores its `name` and its outbound edges.  In the source
  an edge is an `Arc<RwLock<Role>>` handle to a peer node that always
  lives in the manager's index and whose identity is its (immutable)
  `name`; every edge operation in the source (`add_role`, `delete_role`,
  `has_direct_role`, traversal) identifies the peer through `name` only.
  Edges are therefore embedded as target names, and traversal dereferences
  a handle by looking the name up in the index.  Locks are erased.
* The manager's `all_roles: HashMap<String, Arc<RwLock<Role>>>` is
  embedded as a list of `Role`s; the source maintains key = role.name so
  the key is kept inside the node.  HashMap iteration order is
  unspecified in the source, so a list refines it with one fixed order.
* `Vec::replace_range(0..k, "")` removes the first `k` UTF-8 *bytes* and
  panics when `k` exceeds the byte length or does not fall on a character
  boundary; it is embedded as an `Option`-valued byte-strip
  (`none` = panic).
* Fallible `delete_link` returns `Except String` mirroring
  `Result<(), RbacError::NotFound>` with its "name1 OR name2" payload.
-/

namespace Casbin

/-- A role node: its name and the names of its outbound edge targets
(`Role { name, roles: Vec<Arc<RwLock<Role>>> }` in the source). -/
structure Role where
  name : String
  roles : List String
  deriving Repr, DecidableEq

/-- Source `Role::new` — a fresh node with no edges. -/
def Role.new (name : String) : Role := ⟨name, []⟩

/-- Source `Role::add_role` — append an edge unless an edge with the same target
name is already present. -/
def Role.add_role (r : Role) (other : String) : Role :=
  if r.roles.any (fun x => x == other) then r
  else { r with roles := r.roles ++ [other] }

/-- Source `Role::delete_role` — retain only edges whose target name differs. -/
def Role.delete_role (r : Role) (other : String) : Role :=
  { r with roles := r.roles.filter (fun x => !(x == other)) }

/-- Source `Role::get_roles` — the edge-target names in order. -/
def Role.get_roles (r : Role) : List String := r.roles

/-- Source `Role::has_direct_role` — some edge target's name equals the argument. -/
def Role.has_direct_role (r : Role) (n : String) : Bool :=
  r.roles.any (fun x => x == n)

/-- Source `Role::has_role` — budgeted depth-first reachability.  `rs` is the
manager index used to dereference edge names (in the source each edge is
already a handle to the indexed node). -/
def Role.has_role (rs : List Role) (r : Role) (target : String) (budget : Nat) : Bool :=
  if r.name == target then true
  else
    match budget with
    | 0 => false
    | b + 1 =>
      r.roles.any (fun e =>
        match rs.find? (fun x => x.name == e) with
        | some r2 => Role.has_role rs r2 target b
        | none => false)

/-- The manager: node index, reachability budget, optional matching
predicate (`DefaultRoleManager` in the source). -/
structure DefaultRoleManager where
  all_roles : List Role
  max_hierarchy_level : Nat
  matching_fn : Option (String → String → Bool)

/-- Source `DefaultRoleManager::new`. -/
def DefaultRoleManager.new (k : Nat) : DefaultRoleManager := ⟨[], k, none⟩

/-- The `entry(name).or_insert_with(Role::new)` step of `create_role`. -/
def insertRole (rs : List Role) (name : String) : List Role :=
  if rs.any (fun r => r.name == name) then rs else rs ++ [Role.new name]

/-- The matcher expansion pass of `create_role`: fold over every *other*
index entry, adding an edge for each name the predicate accepts. -/
def expandRole (f : String → String → Bool) (name : String)
    (rs : List Role) (r : Role) : Role :=
  (rs.filter (fun e => !(e.name == name))).foldl
    (fun acc e => if f name e.name then acc.add_role e.name else acc) r

/-- Source `DefaultRoleManager::create_role` — materialize `name` (inserting a
fresh node if absent) and, when a matching predicate is set, run the
expansion pass on the materialized node. -/
def DefaultRoleManager.create_role (m : DefaultRoleManager) (name : String) :
    DefaultRoleManager :=
  let rs := insertRole m.all_roles name
  match m.matching_fn with
  | none => { m with all_roles := rs }
  | some f =>
    { m with all_roles :=
        rs.map (fun r => if r.name == name then expandRole f name rs r else r) }

/-- Source `DefaultRoleManager::has_role` — the matcher-aware membership test. -/
def DefaultRoleManager.has_role (m : DefaultRoleManager) (name : String) : Bool :=
  match m.matching_fn with
  | some f => m.all_roles.any (fun r => f name r.name)
  | none => m.all_roles.any (fun r => r.name == name)

/-- Domain rewriting applied to input names at the boundary. -/
def withDomain (domain : Option String) (n : String) : String :=
  match domain with
  | some d => d ++ "::" ++ n
  | none => n

/-- Apply `f` to the indexed node(s) named `name` (in the source this is a
mutation through the node's handle; keys are unique so at most one node
is named `name` in any reachable state). -/
def updateRole (rs : List Role) (name : String) (f : Role → Role) : List Role :=
  rs.map (fun r => if r.name == name then f r else r)

/-- Source `DefaultRoleManager::add_link`. -/
def DefaultRoleManager.add_link (m : DefaultRoleManager) (n1 n2 : String)
    (domain : Option String) : DefaultRoleManager :=
  let name1 := withDomain domain n1
  let name2 := withDomain domain n2
  let m2 := (m.create_role name1).create_role name2
  { m2 with all_roles := updateRole m2.all_roles name1 (fun r => r.add_role name2) }

/-- Source `DefaultRoleManager::delete_link` — `Err(NotFound)` when either
endpoint fails the membership test, else materialize both and remove the
edge by target name. -/
def DefaultRoleManager.delete_link (m : DefaultRoleManager) (n1 n2 : String)
    (domain : Option String) : Except String DefaultRoleManager :=
  let name1 := withDomain domain n1
  let name2 := withDomain domain n2
  if !(m.has_role name1) || !(m.has_role name2) then
    Except.error (name1 ++ " OR " ++ name2)
  else
    let m2 := (m.create_role name1).create_role name2
    Except.ok
      { m2 with all_roles := updateRole m2.all_roles name1 (fun r => r.delete_role name2) }

/-- Source `DefaultRoleManager::has_link` — identity short-circuit on the raw
names, membership gate, then budgeted DFS from the materialized `name1`
node.  (The `&mut self` materialization's effect on the index is
irrelevant to the returned Bool beyond the traversal start node, which is
taken from the materialized index as in the source.) -/
def DefaultRoleManager.has_link (m : DefaultRoleManager) (n1 n2 : String)
    (domain : Option String) : Bool :=
  if n1 == n2 then true
  else
    let name1 := withDomain domain n1
    let name2 := withDomain domain n2
    if !(m.has_role name1) || !(m.has_role name2) then false
    else
      let m1 := m.create_role name1
      match m1.all_roles.find? (fun r => r.name == name1) with
      | some r => Role.has_role m1.all_roles r name2 m.max_hierarchy_level
      | none => false

/-- UTF-8 byte length of a character list (`str::len` counts bytes). -/
def utf8Len (l : List Char) : Nat := l.foldr (fun c acc => c.utf8Size + acc) 0

/-- Drop exactly `k` leading UTF-8 bytes from a character list;
`none` when `k` overruns the string or falls inside a character —
the cases where `String::replace_range(0..k, "")` panics. -/
def stripBytes : Nat → List Char → Option (List Char)
  | 0, l => some l
  | _ + 1, [] => none
  | k + 1, c :: l =>
    if c.utf8Size ≤ k + 1 then stripBytes (k + 1 - c.utf8Size) l else none
termination_by structural _ l => l

/-- Rust `x.replace_range(0..k, "")` on a `String`, `none` = panic. -/
def byteStrip (k : Nat) (s : String) : Option String :=
  (stripBytes k s.data).map (fun l => String.mk l)

/-- Strip `k` bytes from every string; `none` as soon as one strip
panics (the source panics at the first offending element). -/
def stripAll (k : Nat) : List String → Option (List String)
  | [] => some []
  | s :: t =>
    match byteStrip k s with
    | none => none
    | some s2 =>
      match stripAll k t with
      | none => none
      | some t2 => some (s2 :: t2)

/-- Source `DefaultRoleManager::get_roles` — direct outbound neighbor names of
the materialized node, with the `domain.len() + 2`-byte strip applied to
each when a domain was supplied.  `none` models a panic of the strip. -/
def DefaultRoleManager.get_roles (m : DefaultRoleManager) (name : String)
    (domain : Option String) : Option (List String) :=
  let name1 := withDomain domain name
  if !(m.has_role name1) then some []
  else
    let m1 := m.create_role name1
    match m1.all_roles.find? (fun r => r.name == name1) with
    | some r =>
      match domain with
      | some d => stripAll (utf8Len d.data + 2) r.get_roles
      | none => some r.get_roles
    | none => some []

/-- Source `DefaultRoleManager::get_users` — names of all indexed nodes with a
direct edge to the (rewritten) target, stripped when a domain was
supplied.  `none` models a panic of the strip. -/
def DefaultRoleManager.get_users (m : DefaultRoleManager) (name : String)
    (domain : Option String) : Option (List String) :=
  let name1 := withDomain domain name
  if !(m.has_role name1) then some []
  else
    let users :=
      (m.all_roles.filter (fun r => r.has_direct_role name1)).map Role.name
    match domain with
    | some d => stripAll (utf8Len d.data + 2) users
    | none => some users

/-- Source `DefaultRoleManager::clear`. -/
def DefaultRoleManager.clear (m : DefaultRoleManager) : DefaultRoleManager :=
  { m with all_roles := [] }

/-- Source `RoleManager::add_matching_fn`. -/
def DefaultRoleManager.add_matching_fn (m : DefaultRoleManager)
    (f : String → String → Bool) : DefaultRoleManager :=
  { m with matching_fn := some f }

/-- Run a sequence of `add_link` calls (name1, name2, domain). -/
def runAdds (m : DefaultRoleManager) :
    List (String × String × Option String) → DefaultRoleManager
  | [] => m
  | (n1, n2, d) :: t => runAdds (m.add_link n1 n2 d) t

/-- Bool test that `p` is a leading segment of `l`. -/
def beginsWith : List Char → List Char → Bool
  | [], _ => true
  | _ :: _, [] => false
  | a :: p, b :: l => a == b && beginsWith p l

/-- Holds when `s` contains no colon character at all. -/
def noColon (s : String) : Bool := s.data.all (fun c => !(c == ':'))

def noAdjacentColons : List Char → Bool
  | c1 :: c2 :: t => !(c1 == ':' && c2 == ':') && noAdjacentColons (c2 :: t)
  | _ => true

/-- Holds when `s` does not contain the separator of two adjacent colons. -/
def noSep (s : String) : Bool := noAdjacentColons s.data

/-- Modelled from the spec wording of the reverse-lookup strip, which
speaks of removing "len(domain) + 2 characters": drop a number of
*characters*.  Kept only to compare that wording against the byte-based
code (`replace_range` removes bytes). -/
def charStrip (k : Nat) (s : String) : String := String.mk (s.data.drop k)

/-- Concrete managers used by the per-claim witness theorems. -/
def C2wit_m : DefaultRoleManager := runAdds (DefaultRoleManager.new 3) [("a", "b", none)]

def C2wit_m2 : DefaultRoleManager := ⟨[⟨"a", []⟩, ⟨"b", []⟩], 3, none⟩

def C7wit_m : DefaultRoleManager :=
  (DefaultRoleManager.new 3).add_matching_fn (fun _ _ => true)

def C3wit_f : String → String → Bool := fun _ e => e == "t1:admin"

def C3wit_m : DefaultRoleManager :=
  ((DefaultRoleManager.new 3).add_link "alice" "t1:admin" none).add_matching_fn C3wit_f

def C4cex_m : DefaultRoleManager := (DefaultRoleManager.new 3).add_link "€ab" "d::b" none

def C9cex_m : DefaultRoleManager := (DefaultRoleManager.new 3).add_link "abcd" "d::b" none

def C9cex_m2 : DefaultRoleManager :=
  ((DefaultRoleManager.new 3).add_link "a" "b" none).add_matching_fn (fun x _ => x == "b")

/-- A name lies outside the `d1::` key compartment. -/
def outside (d1 : String) (n : String) : Bool :=
  !(beginsWith (d1.data ++ [':', ':']) n.data)

/-- Simulation relation between a run with the `d1`-domain `add_link`
calls (state `mF`) and the run without them (state `mG`): `mG` is
exactly the outside-`d1` part of `mF`, edges never cross the
compartment border, and the configuration fields agree. -/
def projInv (d1 : String) (mF mG : DefaultRoleManager) : Prop :=
  mF.all_roles.filter (fun r => outside d1 r.name) = mG.all_roles
  ∧ (∀ r ∈ mF.all_roles, outside d1 r.name = true → ∀ e ∈ r.roles, outside d1 e = true)
  ∧ (∀ r ∈ mF.all_roles, outside d1 r.name = false → ∀ e ∈ r.roles, outside d1 e = false)
  ∧ mF.matching_fn = none ∧ mG.matching_fn = none
  ∧ mF.max_hierarchy_level = mG.max_hierarchy_level

/-! ### Basic lemmas about `Role` operations -/

theorem Role.add_role_name (r : Role) (n : String) : (r.add_role n).name = r.name := by
  unfold Role.add_role
  split <;> rfl

theorem Role.add_role_of_mem (r : Role) (n : String) (h : n ∈ r.roles) :
    r.add_role n = r := by
  unfold Role.add_role
  rw [if_pos]
  exact List.any_eq_true.mpr ⟨n, h, beq_self_eq_true n⟩

theorem Role.mem_add_role_self (r : Role) (n : String) : n ∈ (r.add_role n).roles := by
  unfold Role.add_role
  split
  · next h =>
    obtain ⟨x, hx, hb⟩ := List.any_eq_true.mp h
    exact (eq_of_beq hb) ▸ hx
  · simp

theorem Role.mem_add_role_of_mem (r : Role) (n x : String) (h : x ∈ r.roles) :
    x ∈ (r.add_role n).roles := by
  unfold Role.add_role
  split
  · exact h
  · exact List.mem_append_left _ h

theorem Role.mem_add_role_iff (r : Role) (n x : String) :
    x ∈ (r.add_role n).roles ↔ x ∈ r.roles ∨ x = n := by
  constructor
  · intro h
    unfold Role.add_role at h
    split at h
    · exact Or.inl h
    · rcases List.mem_append.mp h with h1 | h1
      · exact Or.inl h1
      · exact Or.inr (List.mem_singleton.mp h1)
  · rintro (h | rfl)
    · exact r.mem_add_role_of_mem n x h
    · exact r.mem_add_role_self x

theorem Role.add_role_nodup (r : Role) (n : String) (h : r.roles.Nodup) :
    (r.add_role n).roles.Nodup := by
  unfold Role.add_role
  split
  · exact h
  · next hany =>
    have hnm : n ∉ r.roles := by
      intro hmem
      exact hany (List.any_eq_true.mpr ⟨n, hmem, beq_self_eq_true n⟩)
    simpa [List.nodup_append] using ⟨h, hnm⟩

/-! ### Lemmas about the matcher-expansion fold -/

theorem expand_foldl_name (f : String → String → Bool) (name : String)
    (l : List Role) (r : Role) :
    (l.foldl (fun acc e => if f name e.name then acc.add_role e.name else acc) r).name
      = r.name := by
  induction l generalizing r with
  | nil => rfl
  | cons e t ih =>
    simp only [List.foldl_cons]
    rw [ih]
    split
    · exact Role.add_role_name _ _
    · rfl

theorem expand_foldl_superset (f : String → String → Bool) (name : String)
    (l : List Role) (r : Role) (x : String) (h : x ∈ r.roles) :
    x ∈ (l.foldl (fun acc e => if f name e.name then acc.add_role e.name else acc) r).roles := by
  induction l generalizing r with
  | nil => exact h
  | cons e t ih =>
    simp only [List.foldl_cons]
    apply ih
    split
    · exact Role.mem_add_role_of_mem _ _ _ h
    · exact h

theorem expand_foldl_mem (f : String → String → Bool) (name : String)
    (l : List Role) (r : Role) (e : Role) (he : e ∈ l) (hf : f name e.name = true) :
    e.name ∈ (l.foldl (fun acc e => if f name e.name then acc.add_role e.name else acc) r).roles := by
  induction l generalizing r with
  | nil => cases he
  | cons a t ih =>
    simp only [List.foldl_cons]
    rcases List.mem_cons.mp he with rfl | ht
    · apply expand_foldl_superset
      rw [if_pos hf]
      exact Role.mem_add_role_self _ _
    · exact ih _ ht

theorem expand_foldl_noop (f : String → String → Bool) (name : String)
    (l : List Role) (r : Role)
    (h : ∀ e ∈ l, f name e.name = true → e.name ∈ r.roles) :
    l.foldl (fun acc e => if f name e.name then acc.add_role e.name else acc) r = r := by
  induction l generalizing r with
  | nil => rfl
  | cons a t ih =>
    simp only [List.foldl_cons]
    have hstep : (if f name a.name then r.add_role a.name else r) = r := by
      split
      · next hf => exact r.add_role_of_mem a.name (h a (List.mem_cons_self a t) hf)
      · rfl
    rw [hstep]
    exact ih r (fun e he hf => h e (List.mem_cons_of_mem a he) hf)

theorem expand_foldl_nodup (f : String → String → Bool) (name : String)
    (l : List Role) (r : Role) (h : r.roles.Nodup) :
    (l.foldl (fun acc e => if f name e.name then acc.add_role e.name else acc) r).roles.Nodup := by
  induction l generalizing r with
  | nil => exact h
  | cons a t ih =>
    simp only [List.foldl_cons]
    apply ih
    split
    · exact Role.add_role_nodup _ _ h
    · exact h

theorem expandRole_name (f : String → String → Bool) (name : String)
    (rs : List Role) (r : Role) : (expandRole f name rs r).name = r.name :=
  expand_foldl_name f name _ r

/-! ### List lemmas used throughout -/

theorem find?_map_name_preserving (g : Role → Role)
    (hg : ∀ r : Role, (g r).name = r.name) (rs : List Role) (n : String) :
    (rs.map g).find? (fun r => r.name == n) = (rs.find? (fun r => r.name == n)).map g := by
  induction rs with
  | nil => rfl
  | cons r t ih =>
    simp only [List.map_cons, List.find?]
    rw [hg r]
    cases hcond : (r.name == n) with
    | true => rfl
    | false => exact ih

theorem find?_filter_of_imp (p q : Role → Bool) (l : List Role)
    (h : ∀ x, p x = true → q x = true) :
    (l.filter q).find? p = l.find? p := by
  induction l with
  | nil => rfl
  | cons a t ih =>
    rw [List.filter_cons]
    cases hp : p a with
    | true =>
      rw [if_pos (h a hp)]
      simp only [List.find?, hp]
    | false =>
      split
      · simp only [List.find?, hp]
        exact ih
      · simp only [List.find?, hp]
        exact ih

theorem find?_eq_some_of_nodup (rs : List Role) (r : Role) (n : String)
    (hnd : (rs.map Role.name).Nodup) (hmem : r ∈ rs) (hname : r.name = n) :
    rs.find? (fun x => x.name == n) = some r := by
  induction rs with
  | nil => cases hmem
  | cons a t ih =>
    simp only [List.map_cons, List.nodup_cons] at hnd
    rcases List.mem_cons.mp hmem with rfl | ht
    · simp [List.find?, hname]
    · have hne : ¬(a.name == n) = true := by
        intro hb
        exact hnd.1 ((eq_of_beq hb).trans hname.symm ▸ List.mem_map_of_mem Role.name ht)
      simp only [List.find?, Bool.eq_false_iff.mpr hne]
      exact ih hnd.2 ht

/-! ### Lemmas about `insertRole` and `create_role` -/

theorem insertRole_of_present (rs : List Role) (n : String)
    (h : rs.any (fun r => r.name == n) = true) : insertRole rs n = rs := by
  unfold insertRole
  rw [if_pos h]

theorem insertRole_of_absent (rs : List Role) (n : String)
    (h : rs.any (fun r => r.name == n) = false) :
    insertRole rs n = rs ++ [Role.new n] := by
  unfold insertRole
  rw [if_neg (by rw [h]; exact Bool.false_ne_true)]

theorem mem_insertRole (rs : List Role) (n : String) (r : Role) (h : r ∈ rs) :
    r ∈ insertRole rs n := by
  unfold insertRole
  split
  · exact h
  · exact List.mem_append_left _ h

theorem create_role_matching_fn (m : DefaultRoleManager) (n : String) :
    (m.create_role n).matching_fn = m.matching_fn := by
  unfold DefaultRoleManager.create_role
  cases m.matching_fn <;> rfl

theorem create_role_max (m : DefaultRoleManager) (n : String) :
    (m.create_role n).max_hierarchy_level = m.max_hierarchy_level := by
  unfold DefaultRoleManager.create_role
  cases m.matching_fn <;> rfl

theorem create_role_no_matcher (m : DefaultRoleManager) (n : String)
    (h : m.matching_fn = none) :
    (m.create_role n).all_roles = insertRole m.all_roles n := by
  unfold DefaultRoleManager.create_role
  rw [h]

theorem DefaultRoleManager.eq_of_fields (m1 m2 : DefaultRoleManager)
    (h1 : m1.all_roles = m2.all_roles)
    (h2 : m1.max_hierarchy_level = m2.max_hierarchy_level)
    (h3 : m1.matching_fn = m2.matching_fn) : m1 = m2 := by
  cases m1 with
  | mk a1 b1 c1 =>
    cases m2 with
    | mk a2 b2 c2 =>
      replace h1 : a1 = a2 := h1
      replace h2 : b1 = b2 := h2
      replace h3 : c1 = c2 := h3
      subst h1
      subst h2
      subst h3
      rfl

theorem create_role_no_matcher_present (m : DefaultRoleManager) (n : String)
    (hm : m.matching_fn = none) (hp : m.has_role n = true) :
    m.create_role n = m := by
  have hany : m.all_roles.any (fun r => r.name == n) = true := by
    unfold DefaultRoleManager.has_role at hp
    rw [hm] at hp
    exact hp
  refine DefaultRoleManager.eq_of_fields _ _ ?_ (create_role_max m n) (create_role_matching_fn m n)
  rw [create_role_no_matcher m n hm, insertRole_of_present _ _ hany]

/-! ### Budgeted reachability: unfolding and monotonicity -/

theorem has_role_mono (rs : List Role) (target : String) :
    ∀ (b b2 : Nat), b ≤ b2 → ∀ r : Role,
      Role.has_role rs r target b = true → Role.has_role rs r target b2 = true := by
  intro b
  induction b with
  | zero =>
    intro b2 _ r h
    rw [Role.has_role.eq_def] at h
    rw [Role.has_role.eq_def]
    split at h
    · next hname => rw [if_pos hname]
    · exact absurd h Bool.false_ne_true
  | succ bb ih =>
    intro b2 hle r h
    obtain ⟨bb2, rfl⟩ : ∃ bb2, b2 = bb2 + 1 := ⟨b2 - 1, by omega⟩
    rw [Role.has_role.eq_def] at h
    rw [Role.has_role.eq_def]
    split at h
    · next hname => rw [if_pos hname]
    · next hname =>
      rw [if_neg hname]
      obtain ⟨e, he, hinner⟩ := List.any_eq_true.mp h
      refine List.any_eq_true.mpr ⟨e, he, ?_⟩
      cases hfind : rs.find? (fun x => x.name == e) with
      | none => rw [hfind] at hinner; exact absurd hinner Bool.false_ne_true
      | some r2 =>
        rw [hfind] at hinner
        exact ih bb2 (by omega) r2 hinner

theorem has_role_set_depth (m : DefaultRoleManager) (k : Nat) (n : String) :
    DefaultRoleManager.has_role { m with max_hierarchy_level := k } n = m.has_role n := rfl

theorem create_role_set_depth_roles (m : DefaultRoleManager) (k : Nat) (n : String) :
    (DefaultRoleManager.create_role { m with max_hierarchy_level := k } n).all_roles
      = (m.create_role n).all_roles := by
  cases m with
  | mk a b c => cases c <;> rfl

theorem Role.delete_role_name (r : Role) (n : String) : (r.delete_role n).name = r.name := rfl

theorem create_role_preserves_names (m : DefaultRoleManager) (n : String) (r : Role)
    (hr : r ∈ m.all_roles) :
    ∃ r2 ∈ (m.create_role n).all_roles, r2.name = r.name := by
  have hr2 : r ∈ insertRole m.all_roles n := mem_insertRole _ _ _ hr
  unfold DefaultRoleManager.create_role
  cases hmf : m.matching_fn with
  | none => exact ⟨r, hr2, rfl⟩
  | some f =>
    refine ⟨(fun r0 => if r0.name == n then expandRole f n (insertRole m.all_roles n) r0 else r0) r,
      List.mem_map_of_mem _ hr2, ?_⟩
    show (if r.name == n then expandRole f n (insertRole m.all_roles n) r else r).name = r.name
    split
    · exact expandRole_name f n _ r
    · rfl

theorem updateRole_step_name (n : String) (f : Role → Role)
    (hf : ∀ r, (f r).name = r.name) (r : Role) :
    ((fun r0 => if r0.name == n then f r0 else r0) r).name = r.name := by
  show (if r.name == n then f r else r).name = r.name
  split
  · exact hf r
  · rfl

theorem find?_updateRole_self (rs : List Role) (n : String) (f : Role → Role)
    (hf : ∀ r, (f r).name = r.name) :
    (updateRole rs n f).find? (fun r => r.name == n)
      = (rs.find? (fun r => r.name == n)).map f := by
  unfold updateRole
  rw [find?_map_name_preserving _ (updateRole_step_name n f hf) rs n]
  cases hfind : rs.find? (fun r => r.name == n) with
  | none => rfl
  | some r0 =>
    have hp := List.find?_some hfind
    show some (if r0.name == n then f r0 else r0) = some (f r0)
    rw [if_pos hp]

theorem find?_updateRole_other (rs : List Role) (n x : String) (hx : ¬ x = n)
    (f : Role → Role) (hf : ∀ r, (f r).name = r.name) :
    (updateRole rs n f).find? (fun r => r.name == x) = rs.find? (fun r => r.name == x) := by
  unfold updateRole
  rw [find?_map_name_preserving _ (updateRole_step_name n f hf) rs x]
  cases hfind : rs.find? (fun r => r.name == x) with
  | none => rfl
  | some r0 =>
    have hp := List.find?_some hfind
    show some (if r0.name == n then f r0 else r0) = some r0
    rw [if_neg]
    intro hb
    exact hx ((eq_of_beq hp).symm.trans (eq_of_beq hb))

/-! ### Claim theorems -/

/-- C8: `has_link(x, x, d)` is always `true`: the equality is decided on
the raw input names before domain rewriting or membership testing, so it
holds on every manager state, including right after `clear()`. -/
theorem C8_identity_short_circuit (m : DefaultRoleManager) (x : String) (d : Option String) :
    m.has_link x x d = true ∧ (m.clear).has_link x x d = true := by
  constructor <;>
    · unfold DefaultRoleManager.has_link
      rw [if_pos (beq_self_eq_true x)]

/-- C1: `Role::has_role` follows the budgeted DFS recurrence exactly —
true on a name match, false once the budget is exhausted, and otherwise
true iff some outbound edge target's recursive call at budget - 1 is
true; consequently with `max_depth = 1` and links a→b→c, `has_link(a,b)`
holds and `has_link(a,c)` does not, while `max_depth = 2` reaches c. -/
theorem C1_has_role_recurrence_and_depth_cap :
    (∀ (rs : List Role) (r : Role) (target : String) (budget : Nat),
      Role.has_role rs r target budget =
        if r.name == target then true
        else
          match budget with
          | 0 => false
          | b + 1 =>
            r.roles.any (fun e =>
              match rs.find? (fun x => x.name == e) with
              | some r2 => Role.has_role rs r2 target b
              | none => false))
    ∧ (runAdds (DefaultRoleManager.new 1) [("a", "b", none), ("b", "c", none)]).has_link
        "a" "b" none = true
    ∧ (runAdds (DefaultRoleManager.new 1) [("a", "b", none), ("b", "c", none)]).has_link
        "a" "c" none = false
    ∧ (runAdds (DefaultRoleManager.new 2) [("a", "b", none), ("b", "c", none)]).has_link
        "a" "c" none = true := by
  refine ⟨fun rs r target budget => ?_, by decide, by decide, by decide⟩
  rw [Role.has_role.eq_def]

/-- C5: depth monotonicity — on the same index, names and domain, if
`has_link` answers true under budget `k` then it answers true under any
budget `k2 ≥ k`. -/
theorem C5_depth_monotone
    (m : DefaultRoleManager) (n1 n2 : String) (d : Option String) (k k2 : Nat)
    (hk : k ≤ k2)
    (h : ({ m with max_hierarchy_level := k } : DefaultRoleManager).has_link n1 n2 d
          = true) :
    ({ m with max_hierarchy_level := k2 } : DefaultRoleManager).has_link n1 n2 d
      = true := by
  unfold DefaultRoleManager.has_link at h ⊢
  by_cases hn : (n1 == n2) = true
  · rw [if_pos hn]
  · rw [if_neg hn] at h ⊢
    simp only [has_role_set_depth, create_role_set_depth_roles] at h ⊢
    split at h
    · exact absurd h Bool.false_ne_true
    · next hgate =>
      rw [if_neg hgate]
      split at h
      · next r hfind => exact has_role_mono _ _ k k2 hk r h
      · exact absurd h Bool.false_ne_true

/-- C5 witness: a concrete chain where the true answer at depth 1 is
preserved at depth 3. -/
theorem C5_depth_monotone_witness :
    ({ runAdds (DefaultRoleManager.new 0) [("a", "b", none)] with
        max_hierarchy_level := 3 } : DefaultRoleManager).has_link "a" "b" none = true :=
  C5_depth_monotone (runAdds (DefaultRoleManager.new 0) [("a", "b", none)])
    "a" "b" none 1 3 (by decide) (by decide)

/-- C2: `delete_link` returns the NotFound error iff one of the rewritten
endpoints fails the matcher-aware membership test; when both pass it
always succeeds, the resulting state removes from node `n1` exactly the
edges whose target name equals `n2` (so deleting an absent edge is a
silent no-op), leaves every other node unchanged, and removes no node. -/
theorem C2_delete_link_not_found (m : DefaultRoleManager) (n1 n2 : String) (d : Option String) :
    ((m.delete_link n1 n2 d).isOk = false
      ↔ (m.has_role (withDomain d n1) = false ∨ m.has_role (withDomain d n2) = false))
    ∧ (∀ m2, m.delete_link n1 n2 d = Except.ok m2 →
        (m2.all_roles.find? (fun r => r.name == withDomain d n1)
            = (((m.create_role (withDomain d n1)).create_role (withDomain d n2)).all_roles.find?
                (fun r => r.name == withDomain d n1)).map
                (fun r => r.delete_role (withDomain d n2))
          ∧ (∀ x : String, ¬ x = withDomain d n1 →
              m2.all_roles.find? (fun r => r.name == x)
                = ((m.create_role (withDomain d n1)).create_role (withDomain d n2)).all_roles.find?
                    (fun r => r.name == x))
          ∧ (∀ r ∈ m.all_roles, ∃ r2 ∈ m2.all_roles, r2.name = r.name))) := by
  constructor
  · simp only [DefaultRoleManager.delete_link]
    split
    · next hgate =>
      refine iff_of_true rfl ?_
      cases hv1 : m.has_role (withDomain d n1) with
      | false => exact Or.inl rfl
      | true =>
        cases hv2 : m.has_role (withDomain d n2) with
        | false => exact Or.inr rfl
        | true =>
          rw [hv1, hv2] at hgate
          simp at hgate
    · next hgate =>
      refine iff_of_false (fun hcontra => Bool.noConfusion hcontra) ?_
      rintro (h1 | h1) <;> rw [h1] at hgate <;> simp at hgate
  · intro m2 hok
    simp only [DefaultRoleManager.delete_link] at hok
    split at hok
    · exact Except.noConfusion hok
    · injection hok with hm2
      subst hm2
      refine ⟨?_, ?_, ?_⟩
      · exact find?_updateRole_self _ _ _ (fun r => Role.delete_role_name r _)
      · intro x hx
        exact find?_updateRole_other _ _ x hx _ (fun r => Role.delete_role_name r _)
      · intro r hr
        obtain ⟨ra, hra, hna⟩ := create_role_preserves_names m (withDomain d n1) r hr
        obtain ⟨rb, hrb, hnb⟩ := create_role_preserves_names _ (withDomain d n2) ra hra
        refine ⟨(fun r0 => if r0.name == withDomain d n1
            then r0.delete_role (withDomain d n2) else r0) rb,
          List.mem_map_of_mem _ hrb, ?_⟩
        dsimp only
        split
        · exact (Role.delete_role_name rb _).trans (hnb.trans hna)
        · exact hnb.trans hna

/-- C2 witness: on an empty manager the delete fails, and after adding
a→b the delete succeeds and empties a's edge list. -/
theorem C2_delete_link_witness :
    ((DefaultRoleManager.new 3).delete_link "a" "b" none).isOk = false
    ∧ C2wit_m2.all_roles.find? (fun r => r.name == "a")
        = (((C2wit_m.create_role "a").create_role "b").all_roles.find?
            (fun r => r.name == "a")).map (fun r => r.delete_role "b") := by
  refine ⟨(C2_delete_link_not_found (DefaultRoleManager.new 3) "a" "b" none).1.mpr
      (Or.inl (by decide)), ?_⟩
  exact ((C2_delete_link_not_found C2wit_m "a" "b" none).2 C2wit_m2 (by rfl)).1

theorem insertRole_roles_nodup (rs : List Role) (n : String)
    (h : ∀ r ∈ rs, r.roles.Nodup) : ∀ r ∈ insertRole rs n, r.roles.Nodup := by
  intro r hr
  unfold insertRole at hr
  split at hr
  · exact h r hr
  · rcases List.mem_append.mp hr with h1 | h1
    · exact h r h1
    · rw [List.mem_singleton.mp h1]
      exact List.nodup_nil

theorem create_role_roles_nodup (m : DefaultRoleManager) (n : String)
    (h : ∀ r ∈ m.all_roles, r.roles.Nodup) :
    ∀ r ∈ (m.create_role n).all_roles, r.roles.Nodup := by
  have hins := insertRole_roles_nodup m.all_roles n h
  unfold DefaultRoleManager.create_role
  cases hmf : m.matching_fn with
  | none => exact hins
  | some f =>
    intro r hr
    obtain ⟨r0, hr0, rfl⟩ := List.mem_map.mp hr
    show (if r0.name == n then expandRole f n (insertRole m.all_roles n) r0 else r0).roles.Nodup
    split
    · exact expand_foldl_nodup f n _ r0 (hins r0 hr0)
    · exact hins r0 hr0

theorem updateRole_roles_nodup (rs : List Role) (n : String) (f : Role → Role)
    (hstep : ∀ r : Role, r.roles.Nodup → (f r).roles.Nodup)
    (h : ∀ r ∈ rs, r.roles.Nodup) :
    ∀ r ∈ updateRole rs n f, r.roles.Nodup := by
  intro r hr
  unfold updateRole at hr
  obtain ⟨r0, hr0, rfl⟩ := List.mem_map.mp hr
  show (if r0.name == n then f r0 else r0).roles.Nodup
  split
  · exact hstep r0 (h r0 hr0)
  · exact h r0 hr0

theorem add_link_roles_nodup (m : DefaultRoleManager) (n1 n2 : String) (d : Option String)
    (h : ∀ r ∈ m.all_roles, r.roles.Nodup) :
    ∀ r ∈ (m.add_link n1 n2 d).all_roles, r.roles.Nodup := by
  unfold DefaultRoleManager.add_link
  exact updateRole_roles_nodup _ _ _ (fun r => Role.add_role_nodup r _)
    (create_role_roles_nodup _ _ (create_role_roles_nodup _ _ h))

/-- C7: edge uniqueness — after any sequence of `add_link` calls (any
domains, matcher set or not), no node carries two outbound edges with
the same target name, and `Role::add_role` on an already-present target
name is a no-op. -/
theorem C7_edge_uniqueness (m0 : DefaultRoleManager)
    (h0 : ∀ r ∈ m0.all_roles, r.roles.Nodup)
    (ops : List (String × String × Option String)) :
    (∀ r ∈ (runAdds m0 ops).all_roles, r.roles.Nodup)
    ∧ (∀ (r : Role) (n : String), n ∈ r.roles → r.add_role n = r) := by
  constructor
  · induction ops generalizing m0 with
    | nil => exact h0
    | cons op t ih =>
      obtain ⟨a, b, dd⟩ := op
      exact ih _ (add_link_roles_nodup m0 a b dd h0)
  · intro r n hn
    exact r.add_role_of_mem n hn

/-- C7 witness: a run with an always-true matcher and a repeated link,
instantiated at the node named a. -/
theorem C7_edge_uniqueness_witness :
    (Role.mk "a" ["b"]).roles.Nodup
    ∧ Role.add_role ⟨"a", ["b"]⟩ "b" = ⟨"a", ["b"]⟩ := by
  constructor
  · exact (C7_edge_uniqueness C7wit_m (by simp [C7wit_m, DefaultRoleManager.new,
      DefaultRoleManager.add_matching_fn]) [("a", "b", none), ("a", "b", none)]).1
      ⟨"a", ["b"]⟩ (by decide)
  · exact (C7_edge_uniqueness C7wit_m (by simp [C7wit_m, DefaultRoleManager.new,
      DefaultRoleManager.add_matching_fn]) [("a", "b", none), ("a", "b", none)]).2
      ⟨"a", ["b"]⟩ "b" (by decide)

theorem filter_ne_map_update (n : String) (f : Role → Role) (rs : List Role)
    (hf : ∀ r, (f r).name = r.name) :
    (rs.map (fun r => if r.name == n then f r else r)).filter (fun r => !(r.name == n))
      = rs.filter (fun r => !(r.name == n)) := by
  induction rs with
  | nil => rfl
  | cons a t ih =>
    have hname : (if a.name == n then f a else a).name = a.name := by
      split
      · exact hf a
      · rfl
    simp only [List.map_cons, List.filter_cons, hname]
    cases ha : (a.name == n) with
    | true => simpa using ih
    | false => simpa using ih

theorem filter_ne_insertRole (rs : List Role) (n : String) :
    (insertRole rs n).filter (fun r => !(r.name == n))
      = rs.filter (fun r => !(r.name == n)) := by
  unfold insertRole
  split
  · rfl
  · rw [List.filter_append]
    have : ([Role.new n].filter (fun r => !(r.name == n))) = [] := by
      simp [Role.new]
    rw [this, List.append_nil]

theorem any_name_map_update (n x : String) (f : Role → Role) (rs : List Role)
    (hf : ∀ r, (f r).name = r.name) :
    (rs.map (fun r => if r.name == n then f r else r)).any (fun r => r.name == x)
      = rs.any (fun r => r.name == x) := by
  induction rs with
  | nil => rfl
  | cons a t ih =>
    simp only [List.map_cons, List.any_cons]
    have hname : (if a.name == n then f a else a).name = a.name := by
      split
      · exact hf a
      · rfl
    rw [hname, ih]

theorem insertRole_any_self (rs : List Role) (n : String) :
    (insertRole rs n).any (fun r => r.name == n) = true := by
  unfold insertRole
  split
  · next h => exact h
  · rw [List.any_append]
    simp [Role.new]

/-- C3: with a matching predicate set, every materialization of `N`
(first or repeated) runs the expansion pass — every already-indexed node
`E` with a different name accepted by `match_fn(N, E.name)` ends up (up
to dedupe) among `N`'s edge targets; the pass is directional, leaving
every node other than `N` exactly unchanged; and re-materializing `N`
on an unchanged index is a no-op on the whole state. -/
theorem create_role_roles_matcher (m : DefaultRoleManager) (f : String → String → Bool)
    (hm : m.matching_fn = some f) (n : String) :
    (m.create_role n).all_roles
      = (insertRole m.all_roles n).map
          (fun r => if r.name == n then expandRole f n (insertRole m.all_roles n) r else r) := by
  unfold DefaultRoleManager.create_role
  rw [hm]

/-- C3: with a matching predicate set, every materialization of `N`
(first or repeated) runs the expansion pass — every already-indexed node
`E` with a different name accepted by `match_fn(N, E.name)` ends up (up
to dedupe) among `N`'s edge targets; the pass is directional, leaving
every node other than `N` exactly unchanged; and re-materializing `N`
on an unchanged index is a no-op on the whole state. -/
theorem C3_matcher_expansion (m : DefaultRoleManager) (f : String → String → Bool)
    (hm : m.matching_fn = some f) (N : String) :
    (∀ E ∈ m.all_roles, ¬ E.name = N → f N E.name = true →
      ∀ rN, (m.create_role N).all_roles.find? (fun r => r.name == N) = some rN →
        E.name ∈ rN.roles)
    ∧ ((m.create_role N).all_roles.filter (fun r => !(r.name == N))
        = m.all_roles.filter (fun r => !(r.name == N)))
    ∧ (m.create_role N).create_role N = m.create_role N := by
  have hgname : ∀ r : Role,
      ((fun r0 => if r0.name == N then expandRole f N (insertRole m.all_roles N) r0 else r0) r).name
        = r.name :=
    updateRole_step_name N _ (fun r => expandRole_name f N _ r)
  have hroles := create_role_roles_matcher m f hm N
  refine ⟨?_, ?_, ?_⟩
  · intro E hE hne hf2 rN hfind
    rw [hroles, find?_map_name_preserving _ hgname] at hfind
    cases hfind0 : (insertRole m.all_roles N).find? (fun r => r.name == N) with
    | none => rw [hfind0] at hfind; exact Option.noConfusion hfind
    | some r0 =>
      rw [hfind0] at hfind
      have hp0 := List.find?_some hfind0
      have hr : (if r0.name == N then expandRole f N (insertRole m.all_roles N) r0 else r0) = rN :=
        Option.some.inj hfind
      rw [if_pos hp0] at hr
      have hEfilter : E ∈ (insertRole m.all_roles N).filter (fun e => !(e.name == N)) := by
        refine List.mem_filter.mpr ⟨mem_insertRole _ _ _ hE, ?_⟩
        rw [beq_eq_false_iff_ne.mpr hne]
        rfl
      rw [← hr]
      exact expand_foldl_mem f N _ r0 E hEfilter hf2
  · rw [hroles, filter_ne_map_update N _ _ (fun r => expandRole_name f N _ r)]
    exact filter_ne_insertRole m.all_roles N
  · have hm1 : (m.create_role N).matching_fn = some f := by
      rw [create_role_matching_fn, hm]
    have hany1 : (m.create_role N).all_roles.any (fun r => r.name == N) = true := by
      rw [hroles, any_name_map_update N N _ _ (fun r => expandRole_name f N _ r)]
      exact insertRole_any_self m.all_roles N
    have hins1 : insertRole (m.create_role N).all_roles N = (m.create_role N).all_roles :=
      insertRole_of_present _ _ hany1
    have hfilter_eq : (m.create_role N).all_roles.filter (fun e => !(e.name == N))
        = (insertRole m.all_roles N).filter (fun e => !(e.name == N)) := by
      rw [hroles]
      exact filter_ne_map_update N _ _ (fun r => expandRole_name f N _ r)
    have hstep : ∀ r1 ∈ (m.create_role N).all_roles,
        (if r1.name == N then expandRole f N (m.create_role N).all_roles r1 else r1) = r1 := by
      intro r1 hr1
      split
      · next hname1 =>
        rw [hroles] at hr1
        obtain ⟨r0, hr0, hgr⟩ := List.mem_map.mp hr1
        by_cases h0 : (r0.name == N) = true
        · rw [if_pos h0] at hgr
          unfold expandRole
          rw [hfilter_eq]
          exact expand_foldl_noop f N _ r1
            (fun e he hfe => hgr ▸ expand_foldl_mem f N _ r0 e he hfe)
        · rw [if_neg h0] at hgr
          exact absurd (hgr ▸ hname1) h0
      · rfl
    refine DefaultRoleManager.eq_of_fields _ _ ?_ (create_role_max _ _)
      (create_role_matching_fn _ _)
    rw [create_role_roles_matcher (m.create_role N) f hm1 N, hins1]
    exact (List.map_congr_left hstep).trans (List.map_id _)

/-- C3 witness: with a predicate accepting the name t1:admin, creating
bob links it to the pre-existing t1:admin node, and re-creating bob is a
state-level no-op. -/
theorem C3_matcher_expansion_witness :
    (Role.mk "t1:admin" []).name ∈ (Role.mk "bob" ["t1:admin"]).roles
    ∧ (C3wit_m.create_role "bob").create_role "bob" = C3wit_m.create_role "bob" := by
  refine ⟨?_, ((C3_matcher_expansion C3wit_m C3wit_f rfl "bob").2).2⟩
  exact (C3_matcher_expansion C3wit_m C3wit_f rfl "bob").1 ⟨"t1:admin", []⟩ (by decide)
    (by decide) (by decide) ⟨"bob", ["t1:admin"]⟩ (by rfl)

/-! ### UTF-8 byte-strip lemmas -/

theorem utf8Len_nil : utf8Len [] = 0 := rfl

theorem utf8Len_cons (c : Char) (l : List Char) :
    utf8Len (c :: l) = c.utf8Size + utf8Len l := rfl

theorem utf8Len_append (p q : List Char) :
    utf8Len (p ++ q) = utf8Len p + utf8Len q := by
  induction p with
  | nil => simp [utf8Len_nil]
  | cons c t ih =>
    rw [List.cons_append, utf8Len_cons, utf8Len_cons, ih]
    omega

theorem utf8Len_eq_zero_iff (p : List Char) : utf8Len p = 0 ↔ p = [] := by
  cases p with
  | nil => simp [utf8Len_nil]
  | cons c t =>
    rw [utf8Len_cons]
    have := Char.utf8Size_pos c
    constructor
    · intro h
      omega
    · intro h
      exact List.noConfusion h

theorem stripBytes_eq_some_iff (l : List Char) : ∀ (k : Nat) (t : List Char),
    stripBytes k l = some t ↔ ∃ p, l = p ++ t ∧ utf8Len p = k := by
  induction l with
  | nil =>
    intro k t
    cases k with
    | zero =>
      simp only [stripBytes]
      constructor
      · intro h
        exact ⟨[], by rw [List.nil_append, Option.some.inj h], rfl⟩
      · rintro ⟨p, hp, hlen⟩
        obtain ⟨rfl, rfl⟩ := List.append_eq_nil.mp hp.symm
        rfl
    | succ k0 =>
      simp only [stripBytes]
      constructor
      · intro h
        exact Option.noConfusion h
      · rintro ⟨p, hp, hlen⟩
        obtain ⟨rfl, rfl⟩ := List.append_eq_nil.mp hp.symm
        exact absurd hlen (by simp [utf8Len_nil])
  | cons c l2 ih =>
    intro k t
    cases k with
    | zero =>
      simp only [stripBytes]
      constructor
      · intro h
        exact ⟨[], by rw [List.nil_append, Option.some.inj h], rfl⟩
      · rintro ⟨p, hp, hlen⟩
        rw [(utf8Len_eq_zero_iff p).mp hlen] at hp
        rw [hp, List.nil_append]
    | succ k0 =>
      simp only [stripBytes]
      split
      · next hsize =>
        rw [ih (k0 + 1 - c.utf8Size) t]
        constructor
        · rintro ⟨p2, hp2, hlen2⟩
          refine ⟨c :: p2, by rw [hp2, List.cons_append], ?_⟩
          rw [utf8Len_cons, hlen2]
          omega
        · rintro ⟨p, hp, hlen⟩
          cases p with
          | nil => exact absurd hlen (by simp [utf8Len_nil])
          | cons c2 p2 =>
            rw [List.cons_append] at hp
            have hc : c = c2 := (List.cons.inj hp).1
            have hl2 : l2 = p2 ++ t := (List.cons.inj hp).2
            rw [utf8Len_cons, ← hc] at hlen
            exact ⟨p2, hl2, by omega⟩
      · next hsize =>
        constructor
        · intro h
          exact Option.noConfusion h
        · rintro ⟨p, hp, hlen⟩
          cases p with
          | nil => exact absurd hlen (by simp [utf8Len_nil])
          | cons c2 p2 =>
            rw [List.cons_append] at hp
            have hc : c = c2 := (List.cons.inj hp).1
            rw [utf8Len_cons] at hlen
            rw [← hc] at hlen
            exact absurd (by omega : c.utf8Size ≤ k0 + 1) hsize

theorem stripAll_isSome_iff (k : Nat) (l : List String) :
    (stripAll k l).isSome = true ↔ ∀ s ∈ l, (byteStrip k s).isSome = true := by
  induction l with
  | nil => simp [stripAll]
  | cons s t ih =>
    simp only [stripAll]
    cases hb : byteStrip k s with
    | none =>
      constructor
      · intro h
        exact Bool.noConfusion h
      · intro h
        have h3 := h s (List.mem_cons_self s t)
        rw [hb] at h3
        exact Bool.noConfusion h3
    | some s2 =>
      cases ha : stripAll k t with
      | none =>
        constructor
        · intro h
          exact Bool.noConfusion h
        · intro h
          have h2 := ih.mpr (fun x hx => h x (List.mem_cons_of_mem s hx))
          rw [ha] at h2
          exact Bool.noConfusion h2
      | some t2 =>
        constructor
        · intro _
          intro x hx
          rcases List.mem_cons.mp hx with rfl | hx2
          · simp [hb]
          · exact ih.mp (by simp [ha]) x hx2
        · intro _
          rfl

theorem beginsWith_iff (p : List Char) : ∀ l : List Char,
    beginsWith p l = true ↔ ∃ t, l = p ++ t := by
  induction p with
  | nil =>
    intro l
    simp only [beginsWith, List.nil_append]
    exact iff_of_true trivial ⟨l, rfl⟩
  | cons a p2 ih =>
    intro l
    cases l with
    | nil =>
      simp only [beginsWith]
      constructor
      · intro h
        exact Bool.noConfusion h
      · rintro ⟨t, ht⟩
        rw [List.cons_append] at ht
        exact List.noConfusion ht
    | cons b l2 =>
      simp only [beginsWith, Bool.and_eq_true, beq_iff_eq]
      constructor
      · rintro ⟨rfl, h2⟩
        obtain ⟨t, rfl⟩ := (ih l2).mp h2
        exact ⟨t, by rw [List.cons_append]⟩
      · rintro ⟨t, ht⟩
        rw [List.cons_append] at ht
        have hb : b = a := (List.cons.inj ht).1
        have hl2 : l2 = p2 ++ t := (List.cons.inj ht).2
        exact ⟨hb.symm, (ih l2).mpr ⟨t, hl2⟩⟩

theorem byteStrip_of_begins (d s : String)
    (h : beginsWith (d.data ++ [':', ':']) s.data = true) :
    (byteStrip (utf8Len d.data + 2) s).isSome = true := by
  obtain ⟨t, ht⟩ := (beginsWith_iff _ s.data).mp h
  have hstrip : stripBytes (utf8Len d.data + 2) s.data = some t := by
    refine (stripBytes_eq_some_iff s.data _ t).mpr ⟨d.data ++ [':', ':'], ht, ?_⟩
    rw [utf8Len_append]
    have h2 : utf8Len [':', ':'] = 2 := by decide
    omega
  unfold byteStrip
  rw [hstrip]
  rfl

/-- Pre-strip/post-strip factorization of `get_roles`: the call with a
domain equals the raw (no-domain) call on the rewritten name, followed
by the byte strip of `domain.len() + 2` bytes on every element. -/
theorem get_roles_strip_raw (m : DefaultRoleManager) (n d : String) :
    m.get_roles n (some d)
      = (m.get_roles (withDomain (some d) n) none).bind
          (stripAll (utf8Len d.data + 2)) := by
  simp only [DefaultRoleManager.get_roles, withDomain]
  split
  · rfl
  · split
    · rfl
    · rfl

/-- Pre-strip/post-strip factorization of `get_users`. -/
theorem get_users_strip_raw (m : DefaultRoleManager) (n d : String) :
    m.get_users n (some d)
      = (m.get_users (withDomain (some d) n) none).bind
          (stripAll (utf8Len d.data + 2)) := by
  simp only [DefaultRoleManager.get_users, withDomain]
  split
  · rfl
  · rfl

/-- C4 counterexample: the claim predicts that each name returned by
`get_users` under a domain is the stored name with its first
`len(domain) + 2` *characters* removed.  With stored node "€ab" (a
3-byte character then two 1-byte ones) holding the only direct edge to
"d::b", the code returns "ab" (it removes 3 *bytes*, i.e. just "€"),
while removing 3 characters would leave "". -/
theorem C4_counterexample :
    C4cex_m.get_users "b" (some "d") = some ["ab"]
    ∧ (C4cex_m.all_roles.filter (fun r => r.has_direct_role "d::b")).map Role.name = ["€ab"]
    ∧ ¬ ("ab" = charStrip ("d".length + 2) "€ab")
    ∧ ¬ ("ab" = charStrip ("d".data.length + 2) "€ab") := by
  refine ⟨by decide, by decide, by decide, by decide⟩

/-- C4 amended: each returned name is the stored node name with its
first `len(domain) + 2` *bytes* removed (the call panics instead when
that byte range is invalid — see C10), applied unconditionally to every
name of a node with a direct outbound edge to `<domain>::<name>`, even
to stored names that do not begin with the `<domain>::` prefix (second
conjunct: node "abcd" yields the corrupted name "d"). -/
theorem C4_byte_strip :
    (∀ (m : DefaultRoleManager) (n d : String) (l : List String),
      m.has_role (withDomain (some d) n) = true →
      m.get_users n (some d) = some l →
      stripAll (utf8Len d.data + 2)
        ((m.all_roles.filter (fun r => r.has_direct_role (withDomain (some d) n))).map
          Role.name) = some l)
    ∧ C9cex_m.get_users "b" (some "d") = some ["d"]
    ∧ beginsWith ("d::".data) ("abcd".data) = false := by
  refine ⟨?_, by decide, by decide⟩
  intro m n d l hg hl
  simp only [DefaultRoleManager.get_users] at hl
  rw [hg] at hl
  simpa using hl

/-- C4 witness: the amended theorem applied at the "€ab" manager. -/
theorem C4_byte_strip_witness :
    stripAll (utf8Len "d".data + 2)
      ((C4cex_m.all_roles.filter (fun r => r.has_direct_role (withDomain (some "d") "b"))).map
        Role.name) = some ["ab"] :=
  C4_byte_strip.1 C4cex_m "b" "d" ["ab"] (by decide) (by decide)

/-- C10: the domain strip is partial — `stripBytes k` succeeds exactly
when the first `k` bytes form whole characters (first conjunct);
`get_roles`/`get_users` under a domain are the raw calls followed by
stripping `len(domain) + 2` bytes from every returned name
(conjuncts 2–3), and the strip of a whole result list succeeds iff every
element's strip does (conjunct 4); a stored name shorter than the strip
width makes the call panic — modeled as `none` — (conjunct 5, the 1-byte
node "x"); and every name beginning with `<domain>::` strips
successfully, so under that precondition both operations are total
(conjunct 6). -/
theorem C10_strip_partiality :
    (∀ (k : Nat) (l t : List Char),
      stripBytes k l = some t ↔ ∃ p, l = p ++ t ∧ utf8Len p = k)
    ∧ (∀ (m : DefaultRoleManager) (n d : String),
        m.get_roles n (some d)
          = (m.get_roles (withDomain (some d) n) none).bind
              (stripAll (utf8Len d.data + 2)))
    ∧ (∀ (m : DefaultRoleManager) (n d : String),
        m.get_users n (some d)
          = (m.get_users (withDomain (some d) n) none).bind
              (stripAll (utf8Len d.data + 2)))
    ∧ (∀ (k : Nat) (l : List String),
        (stripAll k l).isSome = true ↔ ∀ s ∈ l, (byteStrip k s).isSome = true)
    ∧ ((DefaultRoleManager.new 3).add_link "x" "d::b" none).get_users "b" (some "d") = none
    ∧ (∀ d s : String, beginsWith (d.data ++ [':', ':']) s.data = true →
        (byteStrip (utf8Len d.data + 2) s).isSome = true) :=
  ⟨fun k l t => stripBytes_eq_some_iff l k t,
   get_roles_strip_raw,
   get_users_strip_raw,
   stripAll_isSome_iff,
   by decide,
   byteStrip_of_begins⟩

/-- C10 witness: the characterizations applied at concrete inputs —
stripping 3 bytes of "d::b" leaves "b", and the prefixed name strips
successfully. -/
theorem C10_strip_partiality_witness :
    stripBytes 3 ("d::b".data) = some ["b".head]
    ∧ (byteStrip (utf8Len "d".data + 2) "d::b").isSome = true := by
  constructor
  · exact (C10_strip_partiality.1 3 ("d::b".data) ["b".head]).mpr
      ⟨"d::".data, by decide, by decide⟩
  · exact (C10_strip_partiality.2.2.2.2.2 "d" "d::b") (by decide)

/-- C9 counterexample: reverse consistency fails on reachable states.
With node "abcd" holding the only edge to "d::b", `get_users("b","d")`
returns the corrupted name "d" (unconditional strip), yet
`get_roles("d","d")` — which looks up "d::d" — is empty.  And with a
non-reflexive matcher (`match_fn x _ = (x == "b")`), `get_users("b")`
returns "a" but `get_roles("a")` fails its membership test and is
empty. -/
theorem C9_counterexample :
    ("d" ∈ (C9cex_m.get_users "b" (some "d")).getD []
      ∧ ¬ "b" ∈ (C9cex_m.get_roles "d" (some "d")).getD []
      ∧ C9cex_m.matching_fn = none)
    ∧ ("a" ∈ (C9cex_m2.get_users "b" none).getD []
      ∧ ¬ "b" ∈ (C9cex_m2.get_roles "a" none).getD []) := by
  exact ⟨⟨by decide, by decide, rfl⟩, by decide, by decide⟩

/-- C9 amended: with no matching predicate set and no domain supplied
(index keys unique, as the source HashMap guarantees), every `a`
returned by `get_users(b)` has `b` among `get_roles(a)`.  (With a domain
the unconditional strip corrupts returned names, and with a matcher the
membership test need not accept a returned name — see the
counterexample.) -/
theorem C9_reverse_consistency (m : DefaultRoleManager)
    (hm : m.matching_fn = none)
    (hnd : (m.all_roles.map Role.name).Nodup)
    (b : String) (l : List String) (hu : m.get_users b none = some l)
    (a : String) (ha : a ∈ l) :
    ∃ l2, m.get_roles a none = some l2 ∧ b ∈ l2 := by
  simp only [DefaultRoleManager.get_users, withDomain] at hu
  split at hu
  · rw [← Option.some.inj hu] at ha
    exact absurd ha (List.not_mem_nil a)
  · rw [← Option.some.inj hu] at ha
    obtain ⟨r, hrf, hrname⟩ := List.mem_map.mp ha
    obtain ⟨hrmem, hdir⟩ := List.mem_filter.mp hrf
    have hbmem : b ∈ r.roles := by
      obtain ⟨x, hx, hxb⟩ := List.any_eq_true.mp hdir
      exact (eq_of_beq hxb) ▸ hx
    have hhas : m.has_role a = true := by
      unfold DefaultRoleManager.has_role
      rw [hm]
      exact List.any_eq_true.mpr ⟨r, hrmem, beq_iff_eq.mpr hrname⟩
    refine ⟨r.roles, ?_, hbmem⟩
    simp only [DefaultRoleManager.get_roles, withDomain]
    rw [hhas, if_neg (fun hcontra => Bool.noConfusion hcontra)]
    rw [create_role_no_matcher_present m a hm hhas]
    rw [find?_eq_some_of_nodup m.all_roles r a hnd hrmem hrname]
    rfl

/-- C9 witness: the amended theorem applied at the u5→g3 link. -/
theorem C9_reverse_consistency_witness :
    ∃ l2, (runAdds (DefaultRoleManager.new 3) [("u5", "g3", none)]).get_roles "u5" none
        = some l2 ∧ "g3" ∈ l2 :=
  C9_reverse_consistency (runAdds (DefaultRoleManager.new 3) [("u5", "g3", none)])
    rfl (by decide) "g3" ["u5"] (by decide) "u5" (by decide)

/-! ### Domain-compartment string lemmas -/

theorem string_eq_of_data (s1 s2 : String) (h : s1.data = s2.data) : s1 = s2 := by
  cases s1 with
  | mk l1 =>
    cases s2 with
    | mk l2 =>
      replace h : l1 = l2 := h
      rw [h]

theorem data_withDomain (d n : String) :
    (withDomain (some d) n).data = d.data ++ [':', ':'] ++ n.data := by
  show (d ++ "::" ++ n).data = _
  rw [String.data_append, String.data_append]

theorem sep_split_inj (l1 : List Char) : ∀ (l2 a b : List Char),
    (∀ c ∈ l1, ¬ c = ':') → (∀ c ∈ l2, ¬ c = ':') →
    l1 ++ ':' :: a = l2 ++ ':' :: b → l1 = l2 ∧ a = b := by
  induction l1 with
  | nil =>
    intro l2 a b _ h2 heq
    cases l2 with
    | nil =>
      rw [List.nil_append, List.nil_append] at heq
      exact ⟨rfl, (List.cons.inj heq).2⟩
    | cons c2 t2 =>
      rw [List.nil_append, List.cons_append] at heq
      exact absurd ((List.cons.inj heq).1).symm (h2 c2 (List.mem_cons_self c2 t2))
  | cons c1 t1 ih =>
    intro l2 a b h1 h2 heq
    cases l2 with
    | nil =>
      rw [List.nil_append, List.cons_append] at heq
      exact absurd (List.cons.inj heq).1 (h1 c1 (List.mem_cons_self c1 t1))
    | cons c2 t2 =>
      rw [List.cons_append, List.cons_append] at heq
      obtain ⟨hc, ht⟩ := List.cons.inj heq
      obtain ⟨hl, hab⟩ := ih t2 a b (fun c hc2 => h1 c (List.mem_cons_of_mem c1 hc2))
        (fun c hc2 => h2 c (List.mem_cons_of_mem c2 hc2)) ht
      exact ⟨by rw [hc, hl], hab⟩

theorem noColon_chars (s : String) (h : noColon s = true) : ∀ c ∈ s.data, ¬ c = ':' := by
  intro c hc
  have h2 := List.all_eq_true.mp h c hc
  intro hcc
  rw [hcc] at h2
  exact Bool.noConfusion h2

theorem outside_other_domain (d1 d2 : String) (hd1 : noColon d1 = true)
    (hd2 : noColon d2 = true) (hne : ¬ d1 = d2) (x : String) :
    outside d1 (withDomain (some d2) x) = true := by
  unfold outside
  cases hbw : beginsWith (d1.data ++ [':', ':']) ((withDomain (some d2) x).data) with
  | false => rfl
  | true =>
    obtain ⟨t, ht⟩ := (beginsWith_iff _ _).mp hbw
    rw [data_withDomain] at ht
    have heq : d2.data ++ ':' :: (':' :: x.data) = d1.data ++ ':' :: (':' :: t) := by
      simpa using ht
    obtain ⟨hd, _⟩ := sep_split_inj d2.data d1.data _ _ (noColon_chars d2 hd2)
      (noColon_chars d1 hd1) heq
    exact absurd (string_eq_of_data d1 d2 hd.symm) hne

theorem noAdjacentColons_append_sep (l t : List Char) :
    noAdjacentColons (l ++ ':' :: ':' :: t) = false := by
  induction l with
  | nil => rfl
  | cons c l2 ih =>
    cases l2 with
    | nil =>
      show (!(c == ':' && ':' == ':') && noAdjacentColons (':' :: ':' :: t)) = false
      rw [show noAdjacentColons (':' :: ':' :: t) = false from rfl]
      exact Bool.and_false _
    | cons c2 l3 =>
      show (!(c == ':' && c2 == ':') && noAdjacentColons (c2 :: (l3 ++ ':' :: ':' :: t))) = false
      rw [show noAdjacentColons (c2 :: (l3 ++ ':' :: ':' :: t))
          = noAdjacentColons ((c2 :: l3) ++ ':' :: ':' :: t) from rfl, ih]
      exact Bool.and_false _

theorem outside_of_noSep (d1 n : String) (h : noSep n = true) :
    outside d1 n = true := by
  unfold outside
  cases hbw : beginsWith (d1.data ++ [':', ':']) n.data with
  | false => rfl
  | true =>
    obtain ⟨t, ht⟩ := (beginsWith_iff _ _).mp hbw
    unfold noSep at h
    rw [ht, List.append_assoc] at h
    rw [show ([':', ':'] ++ t : List Char) = ':' :: ':' :: t from rfl] at h
    rw [noAdjacentColons_append_sep] at h
    exact Bool.noConfusion h

theorem outside_self_domain (d1 x : String) :
    outside d1 (withDomain (some d1) x) = false := by
  unfold outside
  have hbw : beginsWith (d1.data ++ [':', ':']) ((withDomain (some d1) x).data) = true := by
    rw [data_withDomain]
    exact (beginsWith_iff _ _).mpr ⟨x.data, rfl⟩
  rw [hbw]
  rfl

/-! ### Filter/any lemmas for the compartment argument -/

theorem any_filter_of_imp (p q : Role → Bool) (l : List Role)
    (h : ∀ x, p x = true → q x = true) : (l.filter q).any p = l.any p := by
  rw [Bool.eq_iff_iff]
  simp only [List.any_eq_true, List.mem_filter]
  constructor
  · rintro ⟨x, ⟨hx, _⟩, hp⟩
    exact ⟨x, hx, hp⟩
  · rintro ⟨x, hx, hp⟩
    exact ⟨x, ⟨hx, h x hp⟩, hp⟩

theorem filter_of_imp (p q : Role → Bool) (l : List Role)
    (h : ∀ x ∈ l, p x = true → q x = true) : l.filter p = (l.filter q).filter p := by
  rw [List.filter_filter]
  refine (List.filter_congr fun a ha => ?_).symm
  cases hp : p a with
  | true => rw [Bool.true_and]; exact h a ha hp
  | false => rw [Bool.false_and]

theorem filter_name_insertRole_false (q : String → Bool) (rs : List Role) (k : String)
    (hk : q k = false) :
    (insertRole rs k).filter (fun r => q r.name) = rs.filter (fun r => q r.name) := by
  unfold insertRole
  split
  · rfl
  · rw [List.filter_append]
    have h1 : [Role.new k].filter (fun r => q r.name) = [] := by
      simp [Role.new, hk]
    rw [h1, List.append_nil]

theorem filter_name_insertRole_true (q : String → Bool) (rs : List Role) (k : String)
    (hk : q k = true) :
    (insertRole rs k).filter (fun r => q r.name)
      = insertRole (rs.filter (fun r => q r.name)) k := by
  unfold insertRole
  have hany : (rs.filter (fun r => q r.name)).any (fun r => r.name == k)
      = rs.any (fun r => r.name == k) :=
    any_filter_of_imp _ _ rs (fun x hx => by rw [eq_of_beq hx]; exact hk)
  rw [hany]
  split
  · rfl
  · rw [List.filter_append]
    have h1 : [Role.new k].filter (fun r => q r.name) = [Role.new k] := by
      simp [Role.new, hk]
    rw [h1]

theorem filter_name_updateRole_false (q : String → Bool) (rs : List Role) (k : String)
    (f : Role → Role) (hf : ∀ r, (f r).name = r.name) (hk : q k = false) :
    (updateRole rs k f).filter (fun r => q r.name) = rs.filter (fun r => q r.name) := by
  unfold updateRole
  induction rs with
  | nil => rfl
  | cons a t ih =>
    have hname : (if a.name == k then f a else a).name = a.name := by
      split
      · exact hf a
      · rfl
    simp only [List.map_cons, List.filter_cons, hname]
    cases hq : q a.name with
    | true =>
      have hne : (a.name == k) = false := by
        cases hb : (a.name == k) with
        | false => rfl
        | true => rw [eq_of_beq hb, hk] at hq; exact Bool.noConfusion hq
      rw [hne]
      simpa using ih
    | false => simpa using ih

theorem filter_name_updateRole_true (q : String → Bool) (rs : List Role) (k : String)
    (f : Role → Role) (hf : ∀ r, (f r).name = r.name) :
    (updateRole rs k f).filter (fun r => q r.name)
      = updateRole (rs.filter (fun r => q r.name)) k f := by
  unfold updateRole
  induction rs with
  | nil => rfl
  | cons a t ih =>
    have hname : (if a.name == k then f a else a).name = a.name := by
      split
      · exact hf a
      · rfl
    simp only [List.map_cons, List.filter_cons, hname]
    cases hq : q a.name with
    | true =>
      rw [if_pos rfl, if_pos rfl, List.map_cons, ih]
    | false => simpa using ih

theorem mem_insertRole_elim (rs : List Role) (k : String) (r : Role)
    (h : r ∈ insertRole rs k) : r ∈ rs ∨ r = Role.new k := by
  unfold insertRole at h
  split at h
  · exact Or.inl h
  · rcases List.mem_append.mp h with h1 | h1
    · exact Or.inl h1
    · exact Or.inr (List.mem_singleton.mp h1)

theorem mem_updateRole_elim (rs : List Role) (k : String) (f : Role → Role) (r : Role)
    (h : r ∈ updateRole rs k f) :
    ∃ r0 ∈ rs, r = if r0.name == k then f r0 else r0 := by
  unfold updateRole at h
  obtain ⟨r0, hr0, hr⟩ := List.mem_map.mp h
  exact ⟨r0, hr0, hr.symm⟩

theorem any_congr_mem {α : Type} (l : List α) (p q : α → Bool)
    (h : ∀ x ∈ l, p x = q x) : l.any p = l.any q := by
  induction l with
  | nil => rfl
  | cons a t ih =>
    simp only [List.any_cons]
    rw [h a (List.mem_cons_self a t), ih (fun x hx => h x (List.mem_cons_of_mem a hx))]

theorem add_link_matching_fn (m : DefaultRoleManager) (n1 n2 : String) (d : Option String) :
    (m.add_link n1 n2 d).matching_fn = m.matching_fn := by
  show ((m.create_role (withDomain d n1)).create_role (withDomain d n2)).matching_fn = _
  rw [create_role_matching_fn, create_role_matching_fn]

theorem add_link_max (m : DefaultRoleManager) (n1 n2 : String) (d : Option String) :
    (m.add_link n1 n2 d).max_hierarchy_level = m.max_hierarchy_level := by
  show ((m.create_role (withDomain d n1)).create_role (withDomain d n2)).max_hierarchy_level = _
  rw [create_role_max, create_role_max]

theorem add_link_all_roles_no_matcher (m : DefaultRoleManager)
    (hm : m.matching_fn = none) (n1 n2 : String) (d : Option String) :
    (m.add_link n1 n2 d).all_roles
      = updateRole (insertRole (insertRole m.all_roles (withDomain d n1)) (withDomain d n2))
          (withDomain d n1) (fun r => r.add_role (withDomain d n2)) := by
  show updateRole ((m.create_role (withDomain d n1)).create_role (withDomain d n2)).all_roles
      (withDomain d n1) (fun r => r.add_role (withDomain d n2)) = _
  rw [create_role_no_matcher _ _ (by rw [create_role_matching_fn]; exact hm),
    create_role_no_matcher _ _ hm]

theorem has_role_no_matcher (m : DefaultRoleManager) (hm : m.matching_fn = none) (x : String) :
    m.has_role x = m.all_roles.any (fun r => r.name == x) := by
  unfold DefaultRoleManager.has_role
  rw [hm]

theorem projInv_add_inside (d1 : String) (mF mG : DefaultRoleManager)
    (hinv : projInv d1 mF mG) (n1 n2 : String) :
    projInv d1 (mF.add_link n1 n2 (some d1)) mG := by
  obtain ⟨hfil, hout, hin, hmF, hmG, hmax⟩ := hinv
  have hk1 : outside d1 (withDomain (some d1) n1) = false := outside_self_domain d1 n1
  have hk2 : outside d1 (withDomain (some d1) n2) = false := outside_self_domain d1 n2
  have hroles := add_link_all_roles_no_matcher mF hmF n1 n2 (some d1)
  refine ⟨?_, ?_, ?_, ?_, hmG, ?_⟩
  · rw [hroles, filter_name_updateRole_false _ _ _ _ (fun r => Role.add_role_name r _) hk1,
      filter_name_insertRole_false _ _ _ hk2, filter_name_insertRole_false _ _ _ hk1]
    exact hfil
  · intro r hr hq e he
    rw [hroles] at hr
    obtain ⟨r0, hr0, hreq⟩ := mem_updateRole_elim _ _ _ r hr
    by_cases h0 : (r0.name == withDomain (some d1) n1) = true
    · rw [if_pos h0] at hreq
      rw [hreq, Role.add_role_name, eq_of_beq h0, hk1] at hq
      exact Bool.noConfusion hq
    · rw [if_neg h0] at hreq
      rw [hreq] at hq he
      rcases mem_insertRole_elim _ _ r0 hr0 with hr1 | rfl
      · rcases mem_insertRole_elim _ _ r0 hr1 with hr2 | rfl
        · exact hout r0 hr2 hq e he
        · exact absurd he (List.not_mem_nil e)
      · exact absurd he (List.not_mem_nil e)
  · intro r hr hq e he
    rw [hroles] at hr
    obtain ⟨r0, hr0, hreq⟩ := mem_updateRole_elim _ _ _ r hr
    have hr0mem : r0 ∈ mF.all_roles ∨ r0.roles = [] := by
      rcases mem_insertRole_elim _ _ r0 hr0 with hr1 | rfl
      · rcases mem_insertRole_elim _ _ r0 hr1 with hr2 | rfl
        · exact Or.inl hr2
        · exact Or.inr rfl
      · exact Or.inr rfl
    by_cases h0 : (r0.name == withDomain (some d1) n1) = true
    · rw [if_pos h0] at hreq
      subst hreq
      rcases (Role.mem_add_role_iff r0 _ e).mp he with he1 | rfl
      · rcases hr0mem with hr2 | hnil
        · exact hin r0 hr2 (by rw [eq_of_beq h0]; exact hk1) e he1
        · rw [hnil] at he1
          exact absurd he1 (List.not_mem_nil e)
      · exact hk2
    · rw [if_neg h0] at hreq
      rw [hreq] at hq he
      rcases hr0mem with hr2 | hnil
      · exact hin r0 hr2 hq e he
      · rw [hnil] at he
        exact absurd he (List.not_mem_nil e)
  · rw [add_link_matching_fn]
    exact hmF
  · rw [add_link_max]
    exact hmax

theorem projInv_add_outside (d1 : String) (mF mG : DefaultRoleManager)
    (hinv : projInv d1 mF mG) (n1 n2 : String) (dop : Option String)
    (hq1 : outside d1 (withDomain dop n1) = true)
    (hq2 : outside d1 (withDomain dop n2) = true) :
    projInv d1 (mF.add_link n1 n2 dop) (mG.add_link n1 n2 dop) := by
  obtain ⟨hfil, hout, hin, hmF, hmG, hmax⟩ := hinv
  have hrolesF := add_link_all_roles_no_matcher mF hmF n1 n2 dop
  have hrolesG := add_link_all_roles_no_matcher mG hmG n1 n2 dop
  refine ⟨?_, ?_, ?_, ?_, ?_, ?_⟩
  · rw [hrolesF, hrolesG, ← hfil,
      filter_name_updateRole_true _ _ _ _ (fun r => Role.add_role_name r _),
      filter_name_insertRole_true _ _ _ hq2, filter_name_insertRole_true _ _ _ hq1]
  · intro r hr hq e he
    rw [hrolesF] at hr
    obtain ⟨r0, hr0, hreq⟩ := mem_updateRole_elim _ _ _ r hr
    have hr0mem : r0 ∈ mF.all_roles ∨ r0.roles = [] := by
      rcases mem_insertRole_elim _ _ r0 hr0 with hr1 | rfl
      · rcases mem_insertRole_elim _ _ r0 hr1 with hr2 | rfl
        · exact Or.inl hr2
        · exact Or.inr rfl
      · exact Or.inr rfl
    by_cases h0 : (r0.name == withDomain dop n1) = true
    · rw [if_pos h0] at hreq
      subst hreq
      rcases (Role.mem_add_role_iff r0 _ e).mp he with he1 | rfl
      · rcases hr0mem with hr2 | hnil
        · exact hout r0 hr2 (by rw [eq_of_beq h0]; exact hq1) e he1
        · rw [hnil] at he1
          exact absurd he1 (List.not_mem_nil e)
      · exact hq2
    · rw [if_neg h0] at hreq
      rw [hreq] at hq he
      rcases hr0mem with hr2 | hnil
      · exact hout r0 hr2 hq e he
      · rw [hnil] at he
        exact absurd he (List.not_mem_nil e)
  · intro r hr hq e he
    rw [hrolesF] at hr
    obtain ⟨r0, hr0, hreq⟩ := mem_updateRole_elim _ _ _ r hr
    by_cases h0 : (r0.name == withDomain dop n1) = true
    · rw [if_pos h0] at hreq
      rw [hreq, Role.add_role_name, eq_of_beq h0, hq1] at hq
      exact Bool.noConfusion hq
    · rw [if_neg h0] at hreq
      rw [hreq] at hq he
      rcases mem_insertRole_elim _ _ r0 hr0 with hr1 | rfl
      · rcases mem_insertRole_elim _ _ r0 hr1 with hr2 | rfl
        · exact hin r0 hr2 hq e he
        · exact absurd he (List.not_mem_nil e)
      · exact absurd he (List.not_mem_nil e)
  · rw [add_link_matching_fn]
    exact hmF
  · rw [add_link_matching_fn]
    exact hmG
  · rw [add_link_max, add_link_max, hmax]

theorem projInv_runAdds (d1 : String) (hd1 : noColon d1 = true)
    (h : List (String × String × Option String))
    (hop : ∀ op ∈ h, noSep op.1 = true ∧ noSep op.2.1 = true ∧ op.2.2.all noColon = true) :
    ∀ (mF mG : DefaultRoleManager), projInv d1 mF mG →
      projInv d1 (runAdds mF h)
        (runAdds mG (h.filter (fun op => !(op.2.2 == some d1)))) := by
  induction h with
  | nil =>
    intro mF mG hinv
    exact hinv
  | cons op t ih =>
    intro mF mG hinv
    obtain ⟨n1, n2, dop⟩ := op
    have hopt := hop (n1, n2, dop) (List.mem_cons_self _ _)
    have hoprest : ∀ o ∈ t, noSep o.1 = true ∧ noSep o.2.1 = true ∧ o.2.2.all noColon = true :=
      fun o ho => hop o (List.mem_cons_of_mem _ ho)
    by_cases hdop : dop = some d1
    · subst hdop
      have hfil1 : ((n1, n2, some d1) :: t).filter (fun op => !(op.2.2 == some d1))
          = t.filter (fun op => !(op.2.2 == some d1)) := by
        rw [List.filter_cons, if_neg]
        intro hcontra
        rw [show ((n1, n2, some d1).2.2 == some d1) = true from beq_self_eq_true _] at hcontra
        exact Bool.noConfusion hcontra
      rw [hfil1]
      exact ih hoprest _ _ (projInv_add_inside d1 mF mG hinv n1 n2)
    · have hq1 : outside d1 (withDomain dop n1) = true := by
        cases dop with
        | none => exact outside_of_noSep d1 n1 hopt.1
        | some dd =>
          refine outside_other_domain d1 dd hd1 hopt.2.2 (fun hc => hdop (by rw [hc])) n1
      have hq2 : outside d1 (withDomain dop n2) = true := by
        cases dop with
        | none => exact outside_of_noSep d1 n2 hopt.2.1
        | some dd =>
          refine outside_other_domain d1 dd hd1 hopt.2.2 (fun hc => hdop (by rw [hc])) n2
      have hfil1 : ((n1, n2, dop) :: t).filter (fun op => !(op.2.2 == some d1))
          = (n1, n2, dop) :: t.filter (fun op => !(op.2.2 == some d1)) := by
        rw [List.filter_cons, if_pos]
        rw [show ((n1, n2, dop).2.2 == some d1) = (dop == some d1) from rfl,
          beq_eq_false_iff_ne.mpr hdop]
        rfl
      rw [hfil1]
      exact ih hoprest _ _ (projInv_add_outside d1 mF mG hinv n1 n2 dop hq1 hq2)

theorem has_role_compartment (d1 : String) (rsF rsG : List Role)
    (hfil : rsF.filter (fun r => outside d1 r.name) = rsG)
    (hedges : ∀ r ∈ rsF, outside d1 r.name = true → ∀ e ∈ r.roles, outside d1 e = true)
    (tgt : String) :
    ∀ (budget : Nat) (r : Role), r ∈ rsF → outside d1 r.name = true →
      Role.has_role rsF r tgt budget = Role.has_role rsG r tgt budget := by
  intro budget
  induction budget with
  | zero =>
    intro r _ _
    rw [Role.has_role.eq_def, Role.has_role.eq_def]
  | succ b ih =>
    intro r hr hq
    rw [Role.has_role.eq_def, Role.has_role.eq_def]
    by_cases hname : (r.name == tgt) = true
    · rw [if_pos hname, if_pos hname]
    · rw [if_neg hname, if_neg hname]
      apply any_congr_mem
      intro e he
      have hqe : outside d1 e = true := hedges r hr hq e he
      have hfind : rsG.find? (fun x => x.name == e) = rsF.find? (fun x => x.name == e) := by
        rw [← hfil]
        exact find?_filter_of_imp _ _ rsF (fun x hx => by
          rw [show x.name = e from eq_of_beq hx]
          exact hqe)
      rw [hfind]
      cases hf : rsF.find? (fun x => x.name == e) with
      | none => rfl
      | some r2 =>
        have hp0 := List.find?_some hf
        have hp2 : (r2.name == e) = true := hp0
        exact ih r2 (List.mem_of_find?_eq_some hf) (by
          rw [show r2.name = e from eq_of_beq hp2]
          exact hqe)

theorem has_role_compartment_membership (d1 x : String) (mF mG : DefaultRoleManager)
    (hfil : mF.all_roles.filter (fun r => outside d1 r.name) = mG.all_roles)
    (hmF : mF.matching_fn = none) (hmG : mG.matching_fn = none)
    (hx : outside d1 x = true) :
    mF.has_role x = mG.has_role x := by
  rw [has_role_no_matcher mF hmF, has_role_no_matcher mG hmG, ← hfil]
  exact (any_filter_of_imp _ _ mF.all_roles (fun r hr => by
    rw [show r.name = x from eq_of_beq hr]
    exact hx)).symm

/-- C6 counterexample: the claim's proviso (no "::" inside any
user-supplied name or domain) does not isolate domains.  With domains
"a" and "a:" and names ":u"/":v" — none containing "::" — the key
"a" ++ "::" ++ ":u" collides with "a:" ++ "::" ++ "u", so an `add_link`
under domain "a" flips `has_link("u","v")` under the different domain
"a:" from false to true, with no matcher set. -/
theorem C6_counterexample :
    ((DefaultRoleManager.new 3).add_link ":u" ":v" (some "a")).has_link "u" "v" (some "a:")
        = true
    ∧ (DefaultRoleManager.new 3).has_link "u" "v" (some "a:") = false
    ∧ noSep ":u" = true ∧ noSep ":v" = true ∧ noSep "a" = true ∧ noSep "a:" = true
    ∧ noSep "u" = true ∧ noSep "v" = true
    ∧ ¬ ("a" : String) = "a:"
    ∧ (DefaultRoleManager.new 3).matching_fn = none := by
  exact ⟨by decide, by decide, by decide, by decide, by decide, by decide, by decide,
    by decide, by decide, rfl⟩

/-- C6 amended: with no matcher, *provided additionally that no domain
contains a colon character* (names still free of "::"), `add_link`
calls under domain `d1` never affect `has_link`, `get_roles` or
`get_users` queries issued under a different domain `d2`: running a
history with the `d1`-ops removed gives identical query answers. -/
theorem C6_domain_isolation (k : Nat) (h : List (String × String × Option String))
    (d1 d2 a b : String)
    (hop : ∀ op ∈ h, noSep op.1 = true ∧ noSep op.2.1 = true ∧ op.2.2.all noColon = true)
    (hd1 : noColon d1 = true) (hd2 : noColon d2 = true) (hne : ¬ d1 = d2) :
    (runAdds (DefaultRoleManager.new k) h).has_link a b (some d2)
      = (runAdds (DefaultRoleManager.new k)
          (h.filter (fun op => !(op.2.2 == some d1)))).has_link a b (some d2)
    ∧ (runAdds (DefaultRoleManager.new k) h).get_roles a (some d2)
      = (runAdds (DefaultRoleManager.new k)
          (h.filter (fun op => !(op.2.2 == some d1)))).get_roles a (some d2)
    ∧ (runAdds (DefaultRoleManager.new k) h).get_users a (some d2)
      = (runAdds (DefaultRoleManager.new k)
          (h.filter (fun op => !(op.2.2 == some d1)))).get_users a (some d2) := by
  have hinv := projInv_runAdds d1 hd1 h hop (DefaultRoleManager.new k)
    (DefaultRoleManager.new k)
    ⟨rfl, fun r hr => absurd hr (List.not_mem_nil r),
      fun r hr => absurd hr (List.not_mem_nil r), rfl, rfl, rfl⟩
  obtain ⟨hfil, hout, hin, hmF, hmG, hmax⟩ := hinv
  have hqa : outside d1 (withDomain (some d2) a) = true :=
    outside_other_domain d1 d2 hd1 hd2 hne a
  have hqb : outside d1 (withDomain (some d2) b) = true :=
    outside_other_domain d1 d2 hd1 hd2 hne b
  have hhasa := has_role_compartment_membership d1 (withDomain (some d2) a) _ _ hfil hmF hmG hqa
  have hhasb := has_role_compartment_membership d1 (withDomain (some d2) b) _ _ hfil hmF hmG hqb
  have hfinda : (runAdds (DefaultRoleManager.new k)
        (h.filter (fun op => !(op.2.2 == some d1)))).all_roles.find?
          (fun r => r.name == withDomain (some d2) a)
      = (runAdds (DefaultRoleManager.new k) h).all_roles.find?
          (fun r => r.name == withDomain (some d2) a) := by
    rw [← hfil]
    exact find?_filter_of_imp _ _ _ (fun x hx => by
      have hx2 : x.name = withDomain (some d2) a := eq_of_beq hx
      rw [hx2]
      exact hqa)
  refine ⟨?_, ?_, ?_⟩
  · simp only [DefaultRoleManager.has_link]
    by_cases hab : (a == b) = true
    · rw [if_pos hab, if_pos hab]
    · rw [if_neg hab, if_neg hab, hhasa, hhasb]
      by_cases hg : (!(runAdds (DefaultRoleManager.new k)
            (h.filter (fun op => !(op.2.2 == some d1)))).has_role (withDomain (some d2) a)
          || !(runAdds (DefaultRoleManager.new k)
            (h.filter (fun op => !(op.2.2 == some d1)))).has_role (withDomain (some d2) b))
          = true
      · rw [if_pos hg, if_pos hg]
      · rw [if_neg hg, if_neg hg]
        have hga : (runAdds (DefaultRoleManager.new k)
            (h.filter (fun op => !(op.2.2 == some d1)))).has_role (withDomain (some d2) a)
            = true := by
          cases hv : (runAdds (DefaultRoleManager.new k)
              (h.filter (fun op => !(op.2.2 == some d1)))).has_role
                (withDomain (some d2) a) with
          | true => rfl
          | false => exact absurd (by rw [hv]; rfl) hg
        have hfa : (runAdds (DefaultRoleManager.new k) h).has_role (withDomain (some d2) a)
            = true := by rw [hhasa]; exact hga
        rw [create_role_no_matcher_present _ _ hmF hfa,
          create_role_no_matcher_present _ _ hmG hga, hfinda]
        cases hf : (runAdds (DefaultRoleManager.new k) h).all_roles.find?
            (fun r => r.name == withDomain (some d2) a) with
        | none => rfl
        | some r =>
          rw [hmax]
          have hp0 := List.find?_some hf
          have hp2 : (r.name == withDomain (some d2) a) = true := hp0
          exact has_role_compartment d1 _ _ hfil hout (withDomain (some d2) b) _ r
            (List.mem_of_find?_eq_some hf)
            (by rw [show r.name = withDomain (some d2) a from eq_of_beq hp2]; exact hqa)
  · simp only [DefaultRoleManager.get_roles]
    rw [hhasa]
    by_cases hg : (!(runAdds (DefaultRoleManager.new k)
          (h.filter (fun op => !(op.2.2 == some d1)))).has_role (withDomain (some d2) a))
        = true
    · rw [if_pos hg, if_pos hg]
    · rw [if_neg hg, if_neg hg]
      have hga : (runAdds (DefaultRoleManager.new k)
          (h.filter (fun op => !(op.2.2 == some d1)))).has_role (withDomain (some d2) a)
          = true := by
        cases hv : (runAdds (DefaultRoleManager.new k)
            (h.filter (fun op => !(op.2.2 == some d1)))).has_role
              (withDomain (some d2) a) with
        | true => rfl
        | false => exact absurd (by rw [hv]; rfl) hg
      have hfa : (runAdds (DefaultRoleManager.new k) h).has_role (withDomain (some d2) a)
          = true := by rw [hhasa]; exact hga
      rw [create_role_no_matcher_present _ _ hmF hfa,
        create_role_no_matcher_present _ _ hmG hga, hfinda]
  · simp only [DefaultRoleManager.get_users]
    rw [hhasa]
    have husers : (runAdds (DefaultRoleManager.new k) h).all_roles.filter
          (fun r => r.has_direct_role (withDomain (some d2) a))
        = (runAdds (DefaultRoleManager.new k)
            (h.filter (fun op => !(op.2.2 == some d1)))).all_roles.filter
          (fun r => r.has_direct_role (withDomain (some d2) a)) := by
      rw [← hfil]
      refine filter_of_imp _ _ _ (fun r hr hdir => ?_)
      cases hv : outside d1 r.name with
      | true => rfl
      | false =>
        obtain ⟨e, he, heb⟩ := List.any_eq_true.mp hdir
        have hee : e = withDomain (some d2) a := eq_of_beq heb
        have := hin r hr hv e he
        rw [hee, hqa] at this
        exact Bool.noConfusion this
    rw [husers]

/-- C6 witness: the amended isolation theorem applied to a two-domain
history queried under dom2. -/
theorem C6_domain_isolation_witness :
    (runAdds (DefaultRoleManager.new 3)
        [("x", "y", some "dom1"), ("u", "v", some "dom2")]).has_link "u" "v" (some "dom2")
      = (runAdds (DefaultRoleManager.new 3)
          ([("x", "y", some "dom1"), ("u", "v", some "dom2")].filter
            (fun op => !(op.2.2 == some "dom1")))).has_link "u" "v" (some "dom2") :=
  (C6_domain_isolation 3 [("x", "y", some "dom1"), ("u", "v", some "dom2")]
    "dom1" "dom2" "u" "v" (by decide) (by decide) (by decide) (by decide)).1

end Casbin
